import Mathlib

/-!
# Verification of the dexscreener trading simulator core

A shallow embedding of the data-acquisition engine and the position/PnL
accountant of the repository, together with theorems settling the frozen
claims about it.

* JavaScript numbers are modelled by `JsNum`: a finite value is an exact
  rational (rounding of IEEE doubles is idealised away; none of the claims
  is about rounding), and the non-finite values `NaN`, `+Infinity` and
  `-Infinity` are explicit constructors, with the IEEE-754 behaviour of the
  four arithmetic operations and of the `>` comparison that the sources use.
  This makes the behaviour of `totalCost / totalTokens` on a zero holding
  (the subject of claim C2) expressible exactly as the code exhibits it.
* `calculatePositionPnL`, `handleTrade` (src/app/page.tsx) and the
  service operations (src/services/dexscreener-service.ts) are translated
  as pure functions / explicit state transformers.
* The asynchronous parts (rate limiter, request queue) are given
  small-step/trace semantics: time is a natural number of milliseconds and
  a run is a fold over explicit events.
-/

namespace DexSim

/-- A JavaScript number: an exact rational when finite, or one of the three
non-finite IEEE values.  The sign of zero is not tracked: in the translated
code a negative zero can never reach a position where it changes a result
(denominators are only ever built by `+`/`-` of inputs). -/
inductive JsNum where
  | fin (q : ℚ)
  | nan
  | pinf
  | ninf
deriving DecidableEq, Repr

namespace JsNum

/-- IEEE negation. -/
def neg : JsNum → JsNum
  | fin q => fin (-q)
  | nan => nan
  | pinf => ninf
  | ninf => pinf

/-- IEEE addition (`x + y` in JavaScript). -/
def add : JsNum → JsNum → JsNum
  | nan, _ => nan
  | _, nan => nan
  | fin a, fin b => fin (a + b)
  | fin _, pinf => pinf
  | fin _, ninf => ninf
  | pinf, fin _ => pinf
  | ninf, fin _ => ninf
  | pinf, pinf => pinf
  | ninf, ninf => ninf
  | pinf, ninf => nan
  | ninf, pinf => nan

/-- IEEE subtraction: `x - y = x + (-y)`. -/
def sub (x y : JsNum) : JsNum := x.add y.neg

/-- IEEE multiplication (`x * y` in JavaScript). -/
def mul : JsNum → JsNum → JsNum
  | nan, _ => nan
  | _, nan => nan
  | fin a, fin b => fin (a * b)
  | fin a, pinf => if a = 0 then nan else if 0 < a then pinf else ninf
  | fin a, ninf => if a = 0 then nan else if 0 < a then ninf else pinf
  | pinf, fin b => if b = 0 then nan else if 0 < b then pinf else ninf
  | ninf, fin b => if b = 0 then nan else if 0 < b then ninf else pinf
  | pinf, pinf => pinf
  | ninf, ninf => pinf
  | pinf, ninf => ninf
  | ninf, pinf => ninf

/-- IEEE division (`x / y` in JavaScript); a finite zero divisor behaves as
`+0`. -/
def div : JsNum → JsNum → JsNum
  | nan, _ => nan
  | _, nan => nan
  | fin a, fin b =>
    if b = 0 then (if a = 0 then nan else if 0 < a then pinf else ninf)
    else fin (a / b)
  | fin _, pinf => fin 0
  | fin _, ninf => fin 0
  | pinf, fin b => if b < 0 then ninf else pinf
  | ninf, fin b => if b < 0 then pinf else ninf
  | pinf, pinf => nan
  | pinf, ninf => nan
  | ninf, pinf => nan
  | ninf, ninf => nan

/-- The JavaScript `>` comparison: any comparison with `NaN` is `false`. -/
def gtb : JsNum → JsNum → Bool
  | nan, _ => false
  | _, nan => false
  | fin a, fin b => decide (b < a)
  | pinf, pinf => false
  | pinf, ninf => true
  | pinf, fin _ => true
  | ninf, _ => false
  | fin _, pinf => false
  | fin _, ninf => true

/-- `true` exactly on finite values (`Number.isFinite`). -/
def isFinite : JsNum → Bool
  | fin _ => true
  | _ => false

@[simp] theorem add_fin (a b : ℚ) : add (fin a) (fin b) = fin (a + b) := rfl

@[simp] theorem sub_fin (a b : ℚ) : sub (fin a) (fin b) = fin (a - b) := by
  show add (fin a) (fin (-b)) = fin (a - b)
  rw [add_fin, sub_eq_add_neg]

@[simp] theorem mul_fin (a b : ℚ) : mul (fin a) (fin b) = fin (a * b) := rfl

theorem div_fin {a b : ℚ} (hb : b ≠ 0) : div (fin a) (fin b) = fin (a / b) := by
  simp [div, hb]

@[simp] theorem gtb_fin (a b : ℚ) : gtb (fin a) (fin b) = decide (b < a) := rfl

@[simp] theorem isFinite_fin (a : ℚ) : isFinite (fin a) = true := rfl

end JsNum

/-! ## The trade log and the PnL accountant (src/app/page.tsx) -/

/-- The side of a trade (`type: "buy" | "sell"` in the source). -/
inductive Side where
  | buy
  | sell
deriving DecidableEq, Repr

/-- One entry of a trade log (interface `Trade` in src/app/page.tsx).
The metadata fields `id`, `symbol` and `timestamp` are omitted: they are
random/clock values that no computation in the sources reads.  `pnl` and
`pnlPercent` are the optional fields set on sell trades by `handleTrade`. -/
structure Trade where
  side : Side
  amount : ℚ
  price : ℚ
  value : ℚ
  pnl : Option JsNum := none
  pnlPercent : Option JsNum := none
deriving DecidableEq, Repr

/-- The mutable accumulator of `calculatePositionPnL`'s `forEach` loop. -/
structure PnLState where
  totalCost : JsNum
  totalTokens : JsNum
  realizedPnL : JsNum
deriving DecidableEq, Repr

/-- One iteration of the `trades.forEach` loop of `calculatePositionPnL`
(src/app/page.tsx lines 63–77), with JavaScript arithmetic. -/
def applyTrade (s : PnLState) (t : Trade) : PnLState :=
  match t.side with
  | .buy =>
    { s with
      totalCost := s.totalCost.add (.fin t.value)
      totalTokens := s.totalTokens.add (.fin t.amount) }
  | .sell =>
    let avgCost := s.totalCost.div s.totalTokens
    let saleValue := (JsNum.fin t.amount).mul (.fin t.price)
    let costBasis := (JsNum.fin t.amount).mul avgCost
    let remainingRatio := (s.totalTokens.sub (.fin t.amount)).div s.totalTokens
    { totalCost := s.totalCost.mul remainingRatio
      totalTokens := s.totalTokens.sub (.fin t.amount)
      realizedPnL := s.realizedPnL.add (saleValue.sub costBasis) }

/-- The record returned by `calculatePositionPnL`. -/
structure PnLResult where
  realizedPnL : JsNum
  unrealizedPnL : JsNum
  totalPnL : JsNum
  totalTokens : JsNum
  averageCost : JsNum
deriving DecidableEq, Repr

/-- `calculatePositionPnL` (src/app/page.tsx lines 57–91): replay the trade
list from zero state, then derive the unrealized and total PnL and the
average cost from the final accumulator. -/
def calculatePositionPnL (trades : List Trade) (currentPrice : ℚ) : PnLResult :=
  let s := trades.foldl applyTrade ⟨.fin 0, .fin 0, .fin 0⟩
  let currentValue := s.totalTokens.mul (.fin currentPrice)
  let unrealizedPnL :=
    if s.totalTokens.gtb (.fin 0) then currentValue.sub s.totalCost else .fin 0
  { realizedPnL := s.realizedPnL
    unrealizedPnL := unrealizedPnL
    totalPnL := s.realizedPnL.add unrealizedPnL
    totalTokens := s.totalTokens
    averageCost :=
      if s.totalTokens.gtb (.fin 0) then s.totalCost.div s.totalTokens else .fin 0 }

/-! ## Spec-side description of the average-cost algorithm (claim C1)

The following definitions follow the wording of the specification/claim, over
exact rationals, and are compared with the translated code above. -/

/-- A position state as the specification words it: `tokenHoldings`,
`totalCost` and `realizedPnL`, all exact rationals. -/
structure QPos where
  totalCost : ℚ
  tokenHoldings : ℚ
  realizedPnL : ℚ
deriving DecidableEq, Repr

/-- Modelled from the claim/spec wording of the average-cost algorithm:
a buy of amount `a` with notional `v` does `totalCost += v` and
`tokenHoldings += a`; a sell of amount `a` at price `p` adds
`a*p - a*(totalCost/tokenHoldings)` to `realizedPnL`, multiplies `totalCost`
by `(tokenHoldings - a)/tokenHoldings`, and subtracts `a` from
`tokenHoldings`. -/
def specApplyTrade (s : QPos) (t : Trade) : QPos :=
  match t.side with
  | .buy =>
    { s with totalCost := s.totalCost + t.value, tokenHoldings := s.tokenHoldings + t.amount }
  | .sell =>
    { totalCost := s.totalCost * ((s.tokenHoldings - t.amount) / s.tokenHoldings)
      tokenHoldings := s.tokenHoldings - t.amount
      realizedPnL :=
        s.realizedPnL + (t.amount * t.price - t.amount * (s.totalCost / s.tokenHoldings)) }

/-- Modelled from the claim/spec wording: after replay,
`unrealizedPnL = tokenHoldings*currentPrice - totalCost` when
`tokenHoldings > 0` and `0` otherwise, `totalPnL = realizedPnL +
unrealizedPnL`, and the average cost is `totalCost / tokenHoldings` (guarded
by `tokenHoldings > 0`). -/
def specResult (s : QPos) (currentPrice : ℚ) : PnLResult :=
  let unreal : ℚ :=
    if 0 < s.tokenHoldings then s.tokenHoldings * currentPrice - s.totalCost else 0
  { realizedPnL := .fin s.realizedPnL
    unrealizedPnL := .fin unreal
    totalPnL := .fin (s.realizedPnL + unreal)
    totalTokens := .fin s.tokenHoldings
    averageCost := .fin (if 0 < s.tokenHoldings then s.totalCost / s.tokenHoldings else 0) }

/-- Modelled from the claim/spec wording: the full position computation
described by the claim. -/
def computePositionSpec (trades : List Trade) (currentPrice : ℚ) : PnLResult :=
  specResult (trades.foldl specApplyTrade ⟨0, 0, 0⟩) currentPrice

/-- `true` when every sell in the list is replayed while the current holding
is nonzero, so that the average-cost division is well defined at every step
(holdings evolve only by adding buy amounts and subtracting sell amounts). -/
def sellsOk : ℚ → List Trade → Bool
  | _, [] => true
  | h, t :: ts =>
    match t.side with
    | .buy => sellsOk (h + t.amount) ts
    | .sell => decide (h ≠ 0) && sellsOk (h - t.amount) ts

/-- Embeds a rational position state into the JavaScript-number accumulator. -/
def QPos.toState (s : QPos) : PnLState :=
  ⟨.fin s.totalCost, .fin s.tokenHoldings, .fin s.realizedPnL⟩

theorem foldl_applyTrade_spec (trades : List Trade) :
    ∀ s : QPos, sellsOk s.tokenHoldings trades = true →
      trades.foldl applyTrade s.toState = (trades.foldl specApplyTrade s).toState := by
  induction trades with
  | nil => intro s _; rfl
  | cons t ts ih =>
    intro s hok
    cases hside : t.side with
    | buy =>
      have hs : applyTrade s.toState t = (specApplyTrade s t).toState := by
        simp [applyTrade, specApplyTrade, hside, QPos.toState]
      rw [List.foldl_cons, List.foldl_cons, hs]
      apply ih
      simpa [sellsOk, hside, specApplyTrade] using hok
    | sell =>
      have hok' := hok
      simp only [sellsOk, hside, Bool.and_eq_true, decide_eq_true_eq] at hok'
      obtain ⟨hne, hrest⟩ := hok'
      have hs : applyTrade s.toState t = (specApplyTrade s t).toState := by
        simp only [applyTrade, specApplyTrade, QPos.toState, hside]
        rw [JsNum.sub_fin, JsNum.div_fin hne, JsNum.div_fin hne]
        simp [mul_div_assoc]
      rw [List.foldl_cons, List.foldl_cons, hs]
      apply ih
      simpa [specApplyTrade, hside] using hrest

/-- C1: for every ordered trade list replayed from zero state, the position
computation follows the average-cost algorithm of the specification (a buy of
amount `a` with notional `v` does `totalCost += v`, `tokenHoldings += a`; a
sell of amount `a` at price `p` adds `a*p - a*(totalCost/tokenHoldings)` to
`realizedPnL`, multiplies `totalCost` by `(tokenHoldings - a)/tokenHoldings`
and subtracts `a` from `tokenHoldings`; after replay `unrealizedPnL =
tokenHoldings*currentPrice - totalCost` when `tokenHoldings > 0` else `0`,
and `totalPnL = realizedPnL + unrealizedPnL`), whenever every sell happens at
a nonzero holding; in particular buying 10 units for $100 total and then
selling 5 units at $12 yields `tokenHoldings = 5`, `averageCost = 10`,
`realizedPnL = 10` and `unrealizedPnL = 5*currentPrice - 50`. -/
theorem C1_position_average_cost :
    (∀ (trades : List Trade) (price : ℚ), sellsOk 0 trades = true →
        calculatePositionPnL trades price = computePositionSpec trades price) ∧
    (∀ price : ℚ,
        calculatePositionPnL
            [⟨.buy, 10, 10, 100, none, none⟩, ⟨.sell, 5, 12, 60, none, none⟩] price
          = { realizedPnL := .fin 10
              unrealizedPnL := .fin (5 * price - 50)
              totalPnL := .fin (10 + (5 * price - 50))
              totalTokens := .fin 5
              averageCost := .fin 10 }) := by
  have main : ∀ (trades : List Trade) (price : ℚ), sellsOk 0 trades = true →
      calculatePositionPnL trades price = computePositionSpec trades price := by
    intro trades price hok
    have h0 : (⟨.fin 0, .fin 0, .fin 0⟩ : PnLState) = QPos.toState ⟨0, 0, 0⟩ := rfl
    unfold calculatePositionPnL computePositionSpec
    rw [h0, foldl_applyTrade_spec trades ⟨0, 0, 0⟩ hok]
    set s := trades.foldl specApplyTrade ⟨0, 0, 0⟩ with hs
    by_cases hpos : 0 < s.tokenHoldings
    · have hne : s.tokenHoldings ≠ 0 := ne_of_gt hpos
      simp [QPos.toState, specResult, hpos, JsNum.div_fin hne]
    · simp [QPos.toState, specResult, hpos]
  refine ⟨main, ?_⟩
  intro price
  rw [main _ price (by simp [sellsOk])]
  simp only [computePositionSpec, List.foldl_cons, List.foldl_nil, specApplyTrade, specResult]
  norm_num

theorem C1_position_average_cost_witness :
    sellsOk 0 [⟨Side.buy, 10, 10, 100, none, none⟩, ⟨Side.sell, 5, 12, 60, none, none⟩]
        = true ∧
      calculatePositionPnL
          [⟨Side.buy, 10, 10, 100, none, none⟩, ⟨Side.sell, 5, 12, 60, none, none⟩] 20
        = computePositionSpec
            [⟨Side.buy, 10, 10, 100, none, none⟩, ⟨Side.sell, 5, 12, 60, none, none⟩] 20 :=
  ⟨by simp [sellsOk],
   C1_position_average_cost.1
     [⟨Side.buy, 10, 10, 100, none, none⟩, ⟨Side.sell, 5, 12, 60, none, none⟩] 20
     (by simp [sellsOk])⟩

/-! ## Claim C2: a sell replayed at zero holdings

The JavaScript code does not throw on `totalCost / totalTokens` with
`totalTokens == 0`: in IEEE arithmetic the division yields `NaN` (or `±∞`)
and the computation completes, returning a silently poisoned result. -/

/-- `true` when replaying the list reaches some sell at a point where the
accumulated `totalTokens` equals `fin 0` (the `totalTokens` recursion here
mirrors `applyTrade` exactly). -/
def hitsZeroSell : JsNum → List Trade → Bool
  | _, [] => false
  | h, t :: ts =>
    match t.side with
    | .buy => hitsZeroSell (h.add (.fin t.amount)) ts
    | .sell => decide (h = JsNum.fin 0) || hitsZeroSell (h.sub (.fin t.amount)) ts

theorem nonFinite_add_left {x : JsNum} (y : JsNum) (hx : x.isFinite = false) :
    (x.add y).isFinite = false := by
  cases x <;> cases y <;> simp_all [JsNum.add, JsNum.isFinite]

theorem nonFinite_add_right (x : JsNum) {y : JsNum} (hy : y.isFinite = false) :
    (x.add y).isFinite = false := by
  cases x <;> cases y <;> simp_all [JsNum.add, JsNum.isFinite]

theorem nonFinite_sub_right (x : JsNum) {y : JsNum} (hy : y.isFinite = false) :
    (x.sub y).isFinite = false := by
  cases x <;> cases y <;> simp_all [JsNum.sub, JsNum.add, JsNum.neg, JsNum.isFinite]

theorem nonFinite_mul_fin (a : ℚ) {y : JsNum} (hy : y.isFinite = false) :
    ((JsNum.fin a).mul y).isFinite = false := by
  cases y <;> simp_all [JsNum.mul, JsNum.isFinite] <;> split_ifs <;> simp_all [JsNum.isFinite]

theorem nonFinite_div_zero (x : JsNum) : (x.div (.fin 0)).isFinite = false := by
  cases x with
  | fin a =>
    simp only [JsNum.div, if_pos rfl]
    split_ifs <;> rfl
  | nan => rfl
  | pinf => simp [JsNum.div, JsNum.isFinite]
  | ninf => simp [JsNum.div, JsNum.isFinite]

theorem realized_nonFinite_step (s : PnLState) (t : Trade)
    (h : s.realizedPnL.isFinite = false) :
    ((applyTrade s t).realizedPnL).isFinite = false := by
  cases hside : t.side <;> simp [applyTrade, hside, h, nonFinite_add_left]

theorem realized_nonFinite_fold (ts : List Trade) :
    ∀ s : PnLState, s.realizedPnL.isFinite = false →
      ((ts.foldl applyTrade s).realizedPnL).isFinite = false := by
  induction ts with
  | nil => intro s h; simpa using h
  | cons t ts ih =>
    intro s h
    rw [List.foldl_cons]
    exact ih _ (realized_nonFinite_step s t h)

theorem realized_nonFinite_zero_sell (s : PnLState) (t : Trade)
    (htot : s.totalTokens = .fin 0) (hside : t.side = .sell) :
    ((applyTrade s t).realizedPnL).isFinite = false := by
  simp only [applyTrade, hside, htot]
  exact nonFinite_add_right _
    (nonFinite_sub_right _ (nonFinite_mul_fin _ (nonFinite_div_zero _)))

theorem realized_nonFinite_of_hitsZeroSell (ts : List Trade) :
    ∀ s : PnLState, hitsZeroSell s.totalTokens ts = true →
      ((ts.foldl applyTrade s).realizedPnL).isFinite = false := by
  induction ts with
  | nil => intro s h; simp [hitsZeroSell] at h
  | cons t ts ih =>
    intro s h
    rw [List.foldl_cons]
    cases hside : t.side with
    | buy =>
      apply ih
      have harg : (applyTrade s t).totalTokens = s.totalTokens.add (.fin t.amount) := by
        simp [applyTrade, hside]
      rw [harg]
      simpa [hitsZeroSell, hside] using h
    | sell =>
      simp only [hitsZeroSell, hside, Bool.or_eq_true, decide_eq_true_eq] at h
      rcases h with h0 | hrest
      · exact realized_nonFinite_fold ts _ (realized_nonFinite_zero_sell s t h0 hside)
      · apply ih
        have harg : (applyTrade s t).totalTokens = s.totalTokens.sub (.fin t.amount) := by
          simp [applyTrade, hside]
        rw [harg]
        exact hrest

/-- C2 (amended): replaying a trade list that contains a sell reached while
`tokenHoldings == 0` does not fail loudly — `calculatePositionPnL` is total
and returns a result — but the returned `realizedPnL` is a non-finite
JavaScript number (`NaN` or `±Infinity`): a silently poisoned value, not a
thrown divide-by-zero error. -/
theorem C2_zero_sell_silent_nonfinite :
    ∀ (trades : List Trade) (price : ℚ), hitsZeroSell (.fin 0) trades = true →
      ((calculatePositionPnL trades price).realizedPnL).isFinite = false := by
  intro trades price h
  unfold calculatePositionPnL
  exact realized_nonFinite_of_hitsZeroSell trades ⟨.fin 0, .fin 0, .fin 0⟩ h

theorem C2_zero_sell_silent_nonfinite_witness :
    hitsZeroSell (.fin 0) [⟨Side.sell, 5, 12, 60, none, none⟩] = true ∧
      ((calculatePositionPnL [⟨Side.sell, 5, 12, 60, none, none⟩] 1).realizedPnL).isFinite
        = false :=
  ⟨by decide, C2_zero_sell_silent_nonfinite [⟨Side.sell, 5, 12, 60, none, none⟩] 1 (by decide)⟩

/-- C2 counterexample to the claim as stated: replaying a single sell of 5
units at price 12 from zero state does not raise any divide-by-zero failure —
the computation returns a record whose `realizedPnL` is exactly the silent
`NaN` value that the claim rules out. -/
theorem C2_counterexample :
    (calculatePositionPnL [⟨Side.sell, 5, 12, 60, none, none⟩] 1).realizedPnL
      = JsNum.nan := by decide

/-- C10: for the empty trade list and every current price, the position
computation returns all-zero results (`realizedPnL = unrealizedPnL =
totalPnL = totalTokens = averageCost = 0`), every component a finite number:
the final average-cost division is guarded by `totalTokens > 0`. -/
theorem C10_empty_trades :
    ∀ price : ℚ,
      calculatePositionPnL [] price
        = { realizedPnL := .fin 0, unrealizedPnL := .fin 0, totalPnL := .fin 0,
            totalTokens := .fin 0, averageCost := .fin 0 } := by
  intro price
  simp [calculatePositionPnL, JsNum.gtb]

/-! ## `handleTrade` (src/app/page.tsx lines 140–245)

The per-token position record and the caller-side trading logic.  The
`setError`/early-return paths are modelled by `Except.error` carrying the
error message: an error is reported synchronously and no state is produced,
so the balance, holdings and trade log are unchanged by construction.  The
token lookup (`getTokenData`) is modelled by passing the current price as an
argument; its `isNaN(currentPrice)` guard is subsumed by the model's price
being an exact rational, leaving the `currentPrice <= 0` check. -/

/-- interface `TokenPosition` of src/app/page.tsx (the `address` and
`symbol` metadata strings are omitted; no computation branches on them). -/
structure TokenPosition where
  holdings : JsNum
  trades : List Trade
  pnl : JsNum
  averageCost : JsNum
  currentPrice : ℚ
deriving DecidableEq, Repr

/-- The state read and written by `handleTrade`: the cash balance and the
traded token's position. -/
structure AppState where
  balance : ℚ
  token : TokenPosition
deriving DecidableEq, Repr

/-- `handleTrade` (src/app/page.tsx lines 140–245) for one token: validates,
then records the trade and recomputes the position from the full trade
history.  On a sell, the recorded trade is enriched with `pnl` and
`pnlPercent := (pnlData.realizedPnL / amount) * 100` before being appended. -/
def handleTrade (st : AppState) (isBuy : Bool) (amount : ℚ) (currentPrice : ℚ) :
    Except String AppState :=
  if currentPrice ≤ 0 then .error "Invalid price data"
  else
    let tokenAmount := amount / currentPrice
    if isBuy then
      if st.balance < amount then .error "Insufficient balance"
      else
        let trade : Trade := ⟨.buy, tokenAmount, currentPrice, amount, none, none⟩
        let updatedTrades := st.token.trades ++ [trade]
        let pnlData := calculatePositionPnL updatedTrades currentPrice
        .ok { balance := st.balance - amount
              token := { holdings := pnlData.totalTokens
                         trades := updatedTrades
                         pnl := pnlData.totalPnL
                         averageCost := pnlData.averageCost
                         currentPrice := currentPrice } }
    else
      if (JsNum.fin tokenAmount).gtb st.token.holdings then .error "Insufficient tokens"
      else
        let base : Trade := ⟨.sell, tokenAmount, currentPrice, amount, none, none⟩
        let pnlData := calculatePositionPnL (st.token.trades ++ [base]) currentPrice
        let trade : Trade :=
          { base with
            pnl := some pnlData.realizedPnL
            pnlPercent := some ((pnlData.realizedPnL.div (.fin amount)).mul (.fin 100)) }
        .ok { balance := st.balance + amount
              token := { holdings := pnlData.totalTokens
                         trades := st.token.trades ++ [trade]
                         pnl := pnlData.totalPnL
                         averageCost := pnlData.averageCost
                         currentPrice := currentPrice } }

/-- The signed token amount a trade contributes to the holding. -/
def signedAmount (t : Trade) : ℚ :=
  match t.side with
  | .buy => t.amount
  | .sell => -t.amount

/-- The net token holding a trade list replays to. -/
def netAmount (trades : List Trade) : ℚ := (trades.map signedAmount).sum

theorem totalTokens_foldl (ts : List Trade) :
    ∀ (s : PnLState) (x : ℚ), s.totalTokens = .fin x →
      (ts.foldl applyTrade s).totalTokens = .fin (x + netAmount ts) := by
  induction ts with
  | nil => intro s x hx; simpa [netAmount] using hx
  | cons t ts ih =>
    intro s x hx
    rw [List.foldl_cons]
    cases hside : t.side with
    | buy =>
      have := ih (applyTrade s t) (x + t.amount) (by simp [applyTrade, hside, hx])
      rw [this]
      simp [netAmount, signedAmount, hside]
      ring
    | sell =>
      have := ih (applyTrade s t) (x - t.amount) (by simp [applyTrade, hside, hx])
      rw [this]
      simp [netAmount, signedAmount, hside]
      ring

theorem totalTokens_calculate (ts : List Trade) (price : ℚ) :
    (calculatePositionPnL ts price).totalTokens = .fin (netAmount ts) := by
  show (ts.foldl applyTrade ⟨.fin 0, .fin 0, .fin 0⟩).totalTokens = _
  rw [totalTokens_foldl ts _ 0 rfl, zero_add]

/-- The holding stored in the state produced by a `handleTrade` call, or
`none` when the call was rejected. -/
def resultHoldings (r : Except String AppState) : Option JsNum :=
  match r with
  | .ok st => some st.token.holdings
  | .error _ => none

/-- C8: a sell request whose token amount (`amount / currentPrice`) exceeds
the current holdings is rejected by `handleTrade`'s guard with the
synchronous error `"Insufficient tokens"` — no state is produced, so the
balance, holdings and trade log stay unchanged and `calculatePositionPnL`
is never reached.  Conversely, when the stored holding matches the replayed
trade log (the invariant the page maintains), a sell that passes the guard
leaves a non-negative holding: `tokenHoldings` never goes negative. -/
theorem C8_oversell_rejected :
    ∀ (st : AppState) (amount price h : ℚ), 0 < price →
      st.token.holdings = .fin h →
      ((h < amount / price →
          handleTrade st false amount price = .error "Insufficient tokens") ∧
        (h = netAmount st.token.trades → amount / price ≤ h →
          resultHoldings (handleTrade st false amount price)
              = some (.fin (h - amount / price)) ∧
            0 ≤ h - amount / price)) := by
  intro st amount price h hp hh
  have hnle : ¬ price ≤ 0 := not_le.mpr hp
  constructor
  · intro hover
    simp only [handleTrade, hnle, if_false, Bool.false_eq_true, hh]
    simp [hover]
  · intro hinv hle
    have hng : ¬ (h < amount / price) := not_lt.mpr hle
    constructor
    · simp only [handleTrade, hnle, if_false, Bool.false_eq_true, hh]
      simp only [JsNum.gtb_fin, decide_eq_true_eq, hng, if_false]
      simp only [resultHoldings, totalTokens_calculate, Option.some.injEq]
      congr 1
      simp [netAmount, signedAmount, hinv]
      ring
    · linarith

/-- A concrete position: 2 tokens held, bought for $10 at $5 each. -/
def stC8 : AppState :=
  { balance := 1000
    token := { holdings := .fin 2
               trades := [⟨.buy, 2, 5, 10, none, none⟩]
               pnl := .fin 0
               averageCost := .fin 5
               currentPrice := 5 } }

theorem C8_oversell_rejected_witness :
    handleTrade stC8 false 20 5 = .error "Insufficient tokens" ∧
      resultHoldings (handleTrade stC8 false 5 5) = some (.fin 1) := by
  have h1 := (C8_oversell_rejected stC8 20 5 2 (by norm_num) rfl).1 (by norm_num)
  have h2 := (C8_oversell_rejected stC8 5 5 2 (by norm_num) rfl).2
    (by simp [stC8, netAmount, signedAmount]) (by norm_num)
  refine ⟨h1, ?_⟩
  have := h2.1
  norm_num at this
  exact this

/-! ## Claim C9: the `pnlPercent` stored on a sell

`handleTrade` stores `pnlPercent = (pnlData.realizedPnL / amount) * 100`,
where `pnlData.realizedPnL` is the *cumulative* realized PnL of the whole
replayed position — not the realized PnL of that one sell.  With a single
sell the two coincide, but a second sell refutes the claim as stated. -/

/-- The `pnlPercent` recorded on the newest trade of a `handleTrade` result
(`none` when the call was rejected or the trade carries no `pnlPercent`). -/
def lastPnlPercent (r : Except String AppState) : Option JsNum :=
  match r with
  | .ok st => st.token.trades.getLast?.bind (fun t => t.pnlPercent)
  | .error _ => none

/-- C9 (amended): for every recorded sell trade, the stored `pnlPercent`
equals the position's cumulative realized PnL after replaying the full trade
history including this sell — not the realized PnL of this sell alone —
divided by this sell's notional value (the sale proceeds `amount`), times
100. -/
theorem C9_pnlPercent_cumulative :
    ∀ (st : AppState) (amount price : ℚ), ¬ price ≤ 0 →
      (JsNum.fin (amount / price)).gtb st.token.holdings = false →
      lastPnlPercent (handleTrade st false amount price)
        = some
            (((calculatePositionPnL
                  (st.token.trades ++ [⟨.sell, amount / price, price, amount, none, none⟩])
                  price).realizedPnL.div
                (.fin amount)).mul
              (.fin 100)) := by
  intro st amount price hp hguard
  simp only [handleTrade, hp, if_false, Bool.false_eq_true, hguard]
  simp [lastPnlPercent]

/-- A concrete position with one previous sell: bought 10 tokens for $10
($1 each), then sold 5 of them at $2 (that sell realized $5). -/
def stC9 : AppState :=
  { balance := 1000
    token := { holdings := .fin 5
               trades := [⟨.buy, 10, 1, 10, none, none⟩, ⟨.sell, 5, 2, 10, none, none⟩]
               pnl := .fin 10
               averageCost := .fin 1
               currentPrice := 2 } }

/-- C9 counterexample to the claim as stated: selling the remaining 5 tokens
of `stC9` for $10 at $2 realizes $5 on that sell (cumulative realized PnL
$10 minus the $5 already realized by the earlier sell), so the claimed
formula gives `5 / 10 * 100 = 50`; but the stored `pnlPercent` is `100`
(the cumulative realized PnL over the sale proceeds). -/
theorem C9_counterexample :
    lastPnlPercent (handleTrade stC9 false 10 2) = some (.fin 100) ∧
      (calculatePositionPnL
            (stC9.token.trades ++ [⟨.sell, 5, 2, 10, none, none⟩]) 2).realizedPnL.sub
          ((calculatePositionPnL stC9.token.trades 2).realizedPnL)
        = .fin 5 ∧
      ((JsNum.fin 5).div (.fin 10)).mul (.fin 100) = .fin 50 ∧
      JsNum.fin (100 : ℚ) ≠ .fin (50 : ℚ) := by
  refine ⟨?_, ?_, ?_, ?_⟩
  · simp [lastPnlPercent, handleTrade, stC9, calculatePositionPnL, applyTrade,
      JsNum.add, JsNum.sub, JsNum.neg, JsNum.mul, JsNum.div, JsNum.gtb]
    norm_num
  · simp [stC9, calculatePositionPnL, applyTrade,
      JsNum.add, JsNum.sub, JsNum.neg, JsNum.mul, JsNum.div]
    norm_num
  · simp [JsNum.div, JsNum.mul]
    norm_num
  · simp

theorem C9_pnlPercent_cumulative_witness :
    lastPnlPercent (handleTrade stC9 false 10 2)
      = some
          (((calculatePositionPnL
                (stC9.token.trades ++ [⟨.sell, 10 / 2, 2, 10, none, none⟩])
                2).realizedPnL.div
              (.fin 10)).mul
            (.fin 100)) :=
  C9_pnlPercent_cumulative stC9 10 2 (by norm_num)
    (by simp [stC9, JsNum.gtb]; norm_num)

/-! ## The DexScreener service (src/services/dexscreener-service.ts)

State of `DexScreenerService` and the pure state transformations performed
by `fetchTokenData`, `updateBatch`'s queued task, `subscribe` and
`unsubscribe`.  Callback handles are opaque naturals compared by identity
(JS `Set` semantics); a subscriber set is its insertion-ordered,
duplicate-free list of handles (`add` is a no-op on a present member,
`delete` removes the member, `size` is the length).  A parsed fetch
response is `Option (List Pair)` — `none` models a network failure, a
non-`ok` response, or an absent `pairs` field, all of which are caught and
leave the state untouched. -/

/-- `s.toLowerCase()`: lowercases each character.  (Extensionally the same
as `String.toLower`, written over the character list so that it reduces on
literals.) -/
def toLowerStr (s : String) : String := String.mk (s.data.map Char.toLower)

/-- The fields of a `DexScreenerPair` that the service logic consumes:
`baseToken.address`, `liquidity.usd` (`none` when the `liquidity` object is
absent, read as `pair.liquidity?.usd || 0`) and the price.  The remaining
response fields are carried through unread and are omitted. -/
structure Pair where
  baseAddress : String
  priceUsd : ℚ
  liquidity : Option ℚ
deriving DecidableEq, Repr

/-- `pair.liquidity?.usd || 0`. -/
def liqOf (p : Pair) : ℚ := p.liquidity.getD 0

/-- In-memory state of the service: the two caches, the subscriber registry
and (as an observation log) the notifications delivered to callbacks. -/
structure ServiceState where
  tokenData : String → Option Pair
  lastUpdateTime : String → Option ℕ
  subscribers : String → Option (List ℕ)
  notifications : List (String × ℕ × Pair)

/-- The service state at construction: empty caches, no subscribers. -/
def initService : ServiceState :=
  ⟨fun _ => none, fun _ => none, fun _ => none, []⟩

/-- Stable insertion of a pair into a list sorted by descending liquidity:
the comparator `(a, b) => (b.liquidity?.usd || 0) - (a.liquidity?.usd || 0)`
of `fetchTokenData`'s `sort`. -/
def insertByLiq (p : Pair) : List Pair → List Pair
  | [] => [p]
  | q :: qs => if liqOf q < liqOf p then p :: q :: qs else q :: insertByLiq p qs

/-- `data.pairs.sort((a, b) => (b.liquidity?.usd || 0) - (a.liquidity?.usd || 0))`. -/
def sortByLiqDesc : List Pair → List Pair
  | [] => []
  | p :: ps => insertByLiq p (sortByLiqDesc ps)

/-- The state-updating core of `fetchTokenData` (src lines 145–180): when
pairs came back, take `sortedPairs[0]`, cache it under the lowercased
address, stamp `lastUpdateTime` with `now`, synchronously notify every
subscriber of that address, and return the pair; otherwise return `null`
with the state untouched (a thrown/failed fetch is caught and also returns
`null`). -/
def fetchTokenData (st : ServiceState) (address : String) (resp : Option (List Pair))
    (now : ℕ) : ServiceState × Option Pair :=
  match resp with
  | none => (st, none)
  | some pairs =>
    match (sortByLiqDesc pairs).head? with
    | none => (st, none)
    | some pair =>
      let n := toLowerStr address
      ({ tokenData := fun k => if k = n then some pair else st.tokenData k
         lastUpdateTime := fun k => if k = n then some now else st.lastUpdateTime k
         subscribers := st.subscribers
         notifications :=
           st.notifications ++ ((st.subscribers n).getD []).map (fun h => (n, h, pair)) },
       some pair)

/-- The `pairsByAddress` map of `updateBatch` viewed at one key: the fold
over `data.pairs` keeps, per lowercased base-token address, the first entry
of maximal liquidity (`!has(address) || pair.liquidity?.usd > existing`). -/
def bestForAux (tok : String) : Option Pair → List Pair → Option Pair
  | acc, [] => acc
  | acc, p :: ps =>
    bestForAux tok
      (if toLowerStr p.baseAddress = tok then
        match acc with
        | none => some p
        | some q => if liqOf q < liqOf p then some p else some q
      else acc) ps

/-- The entry `pairsByAddress.get tok` after the whole fold. -/
def bestFor (pairs : List Pair) (tok : String) : Option Pair :=
  bestForAux tok none pairs

/-- The state effect of `updateBatch`'s queued `fetchBatch` task (src lines
182–231): an empty chunk returns immediately; a failed fetch (or absent
`pairs`) is caught and changes nothing; otherwise every key of
`pairsByAddress` has its snapshot and timestamp overwritten and its
subscribers notified, and every other key is untouched. -/
def updateBatch (st : ServiceState) (addresses : List String) (resp : Option (List Pair))
    (now : ℕ) : ServiceState :=
  if addresses = [] then st
  else
    match resp with
    | none => st
    | some pairs =>
      { tokenData := fun k =>
          match bestFor pairs k with
          | some p => some p
          | none => st.tokenData k
        lastUpdateTime := fun k =>
          if (bestFor pairs k).isSome then some now else st.lastUpdateTime k
        subscribers := st.subscribers
        notifications :=
          st.notifications ++
            (pairs.map (fun p => toLowerStr p.baseAddress)).dedup.flatMap
              (fun k =>
                match bestFor pairs k with
                | some p => ((st.subscribers k).getD []).map (fun h => (k, h, p))
                | none => []) }

/-- `subscribe` (src lines 251–271), its synchronous part: create the
subscriber set if absent and add the callback handle.  The initial one-off
fetch it also queues is a `RequestQueue` task whose later effect is
`fetchTokenData`; it is not part of the synchronous state change. -/
def subscribe (st : ServiceState) (address : String) (handle : ℕ) : ServiceState :=
  let n := toLowerStr address
  let cur := (st.subscribers n).getD []
  let cur' := if handle ∈ cur then cur else cur ++ [handle]
  { st with subscribers := fun k => if k = n then some cur' else st.subscribers k }

/-- `unsubscribe` (src lines 273–281): remove the handle from the token's
subscriber set if the set exists; when the remaining set has size zero,
delete the subscriber entry, the cached snapshot and the last-update
timestamp. -/
def unsubscribe (st : ServiceState) (address : String) (handle : ℕ) : ServiceState :=
  let n := toLowerStr address
  match st.subscribers n with
  | none => st
  | some s =>
    let s' := s.erase handle
    if s'.length = 0 then
      { tokenData := fun k => if k = n then none else st.tokenData k
        lastUpdateTime := fun k => if k = n then none else st.lastUpdateTime k
        subscribers := fun k => if k = n then none else st.subscribers k
        notifications := st.notifications }
    else
      { st with subscribers := fun k => if k = n then some s' else st.subscribers k }

theorem sortByLiqDesc_head_max :
    ∀ ps : List Pair, ps ≠ [] →
      ∃ m, (sortByLiqDesc ps).head? = some m ∧ m ∈ ps ∧ ∀ q ∈ ps, liqOf q ≤ liqOf m := by
  intro ps
  induction ps with
  | nil => intro h; exact absurd rfl h
  | cons p ps ih =>
    intro _
    cases hps : ps with
    | nil =>
      refine ⟨p, by simp [sortByLiqDesc, insertByLiq], by simp, ?_⟩
      intro q hq
      simp at hq
      simp [hq]
    | cons r rs =>
      rw [hps] at ih
      obtain ⟨m, hm, hmem, hmax⟩ := ih (by simp)
      have hsort : sortByLiqDesc (p :: r :: rs) = insertByLiq p (sortByLiqDesc (r :: rs)) :=
        rfl
      cases hs : sortByLiqDesc (r :: rs) with
      | nil => rw [hs] at hm; simp at hm
      | cons m' rest =>
        rw [hs] at hm
        simp at hm
        rw [hsort, hs]
        by_cases hlt : liqOf m < liqOf p
        · refine ⟨p, by simp [insertByLiq, hm, hlt], by simp, ?_⟩
          intro q hq
          rcases List.mem_cons.mp hq with h | h
          · simp [h]
          · exact le_of_lt (lt_of_le_of_lt (hmax q h) hlt)
        · refine ⟨m, by simp [insertByLiq, hm, hlt], by simp [hmem], ?_⟩
          intro q hq
          rcases List.mem_cons.mp hq with h | h
          · rw [h]; exact not_lt.mp hlt
          · exact hmax q h

theorem bestForAux_spec (tok : String) :
    ∀ (ps : List Pair) (acc : Option Pair) (p : Pair),
      bestForAux tok acc ps = some p →
      ((p ∈ ps ∧ toLowerStr p.baseAddress = tok) ∨ acc = some p) ∧
        (∀ a, acc = some a → liqOf a ≤ liqOf p) ∧
        (∀ q ∈ ps, toLowerStr q.baseAddress = tok → liqOf q ≤ liqOf p) := by
  intro ps
  induction ps with
  | nil =>
    intro acc p h
    simp [bestForAux] at h
    refine ⟨Or.inr h, ?_, by simp⟩
    intro a ha
    rw [h] at ha
    simp at ha
    simp [ha]
  | cons r rs ih =>
    intro acc p h
    by_cases hkey : toLowerStr r.baseAddress = tok
    · cases hacc : acc with
      | none =>
        rw [hacc] at h
        simp only [bestForAux, hkey, if_true, if_pos] at h
        obtain ⟨hor, hacc', hall⟩ := ih (some r) p h
        refine ⟨?_, by simp, ?_⟩
        · rcases hor with ⟨hmem, hk⟩ | hr
          · exact Or.inl ⟨List.mem_cons_of_mem r hmem, hk⟩
          · simp at hr
            exact Or.inl ⟨by simp [hr], by rw [hr] at hkey; exact hkey⟩
        · intro q hq hqk
          rcases List.mem_cons.mp hq with h' | h'
          · rw [h']; exact hacc' r rfl
          · exact hall q h' hqk
      | some a =>
        rw [hacc] at h
        simp only [bestForAux, hkey, if_true, if_pos] at h
        by_cases hlt : liqOf a < liqOf r
        · rw [if_pos hlt] at h
          obtain ⟨hor, hacc', hall⟩ := ih (some r) p h
          have hrp : liqOf r ≤ liqOf p := hacc' r rfl
          refine ⟨?_, ?_, ?_⟩
          · rcases hor with ⟨hmem, hk⟩ | hr
            · exact Or.inl ⟨List.mem_cons_of_mem r hmem, hk⟩
            · simp at hr
              exact Or.inl ⟨by simp [hr], by rw [hr] at hkey; exact hkey⟩
          · intro b hb
            simp at hb
            rw [hb] at hlt
            exact le_of_lt (lt_of_lt_of_le hlt hrp)
          · intro q hq hqk
            rcases List.mem_cons.mp hq with h' | h'
            · rw [h']; exact hrp
            · exact hall q h' hqk
        · rw [if_neg hlt] at h
          obtain ⟨hor, hacc', hall⟩ := ih (some a) p h
          have hap : liqOf a ≤ liqOf p := hacc' a rfl
          refine ⟨?_, ?_, ?_⟩
          · rcases hor with ⟨hmem, hk⟩ | hr
            · exact Or.inl ⟨List.mem_cons_of_mem r hmem, hk⟩
            · exact Or.inr hr
          · intro b hb
            simp at hb
            exact hb ▸ hap
          · intro q hq hqk
            rcases List.mem_cons.mp hq with h' | h'
            · rw [h']; exact le_trans (not_lt.mp hlt) hap
            · exact hall q h' hqk
    · simp only [bestForAux, hkey, if_false, if_neg, not_false_iff] at h
      obtain ⟨hor, hacc', hall⟩ := ih acc p h
      refine ⟨?_, hacc', ?_⟩
      · rcases hor with ⟨hmem, hk⟩ | hr
        · exact Or.inl ⟨List.mem_cons_of_mem r hmem, hk⟩
        · exact Or.inr hr
      · intro q hq hqk
        rcases List.mem_cons.mp hq with h' | h'
        · rw [h'] at hqk; exact absurd hqk hkey
        · exact hall q h' hqk

theorem bestFor_some (pairs : List Pair) (tok : String) (p : Pair)
    (h : bestFor pairs tok = some p) :
    p ∈ pairs ∧ toLowerStr p.baseAddress = tok ∧
      ∀ q ∈ pairs, toLowerStr q.baseAddress = tok → liqOf q ≤ liqOf p := by
  obtain ⟨hor, _, hall⟩ := bestForAux_spec tok pairs none p h
  rcases hor with ⟨hmem, hk⟩ | hr
  · exact ⟨hmem, hk, hall⟩
  · simp at hr

theorem bestForAux_none (tok : String) :
    ∀ (ps : List Pair) (acc : Option Pair), bestForAux tok acc ps = none →
      acc = none ∧ ∀ q ∈ ps, toLowerStr q.baseAddress ≠ tok := by
  intro ps
  induction ps with
  | nil => intro acc h; simpa [bestForAux] using h
  | cons r rs ih =>
    intro acc h
    by_cases hkey : toLowerStr r.baseAddress = tok
    · cases hacc : acc with
      | none =>
        rw [hacc] at h
        simp only [bestForAux, hkey, if_pos] at h
        obtain ⟨habs, _⟩ := ih (some r) h
        simp at habs
      | some a =>
        rw [hacc] at h
        simp only [bestForAux, hkey, if_pos] at h
        obtain ⟨habs, _⟩ := ih _ h
        split at habs <;> simp at habs
    · simp only [bestForAux, hkey, if_neg, not_false_iff] at h
      obtain ⟨hacc, hall⟩ := ih acc h
      refine ⟨hacc, ?_⟩
      intro q hq
      rcases List.mem_cons.mp hq with h' | h'
      · rw [h']; exact hkey
      · exact hall q h'

theorem bestFor_present (pairs : List Pair) (tok : String) :
    (bestFor pairs tok).isSome = true ↔
      ∃ p ∈ pairs, toLowerStr p.baseAddress = tok := by
  constructor
  · intro h
    rw [Option.isSome_iff_exists] at h
    obtain ⟨p, hp⟩ := h
    obtain ⟨hmem, hk, _⟩ := bestFor_some pairs tok p hp
    exact ⟨p, hmem, hk⟩
  · intro ⟨p, hmem, hk⟩
    cases hb : bestFor pairs tok with
    | some q => simp
    | none =>
      obtain ⟨_, hall⟩ := bestForAux_none tok pairs none hb
      exact absurd hk (hall p hmem)

/-- A pair for base token `"a"` with $500 of liquidity. -/
def pairLowLiq : Pair := ⟨"a", 1, some 500⟩

/-- A pair for the same base token `"a"` with $50,000 of liquidity. -/
def pairHighLiq : Pair := ⟨"a", 1, some 50000⟩

/-- C5: when a fetch response contains several entries for the same base
token, the entry with the highest liquidity value is the one cached and
delivered to subscribers — for the single-token fetch (which takes
`sortedPairs[0]` of the descending-liquidity sort) and for the batch fetch
(which keeps the per-address liquidity maximum in `pairsByAddress`); in
particular two pairs of liquidity $500 and $50,000 resolve to the $50,000
pair being cached on both paths. -/
theorem C5_highest_liquidity_selected :
    (∀ (st : ServiceState) (address : String) (pairs : List Pair) (now : ℕ),
        pairs ≠ [] →
        (∀ q ∈ pairs, toLowerStr q.baseAddress = toLowerStr address) →
        ∃ p, (fetchTokenData st address (some pairs) now).2 = some p ∧
          p ∈ pairs ∧ (∀ q ∈ pairs, liqOf q ≤ liqOf p) ∧
          (fetchTokenData st address (some pairs) now).1.tokenData (toLowerStr address)
              = some p ∧
          ∀ h ∈ (st.subscribers (toLowerStr address)).getD [],
            (toLowerStr address, h, p)
              ∈ (fetchTokenData st address (some pairs) now).1.notifications) ∧
    (∀ (pairs : List Pair) (tok : String) (p : Pair),
        bestFor pairs tok = some p →
        p ∈ pairs ∧ toLowerStr p.baseAddress = tok ∧
          (∀ q ∈ pairs, toLowerStr q.baseAddress = tok → liqOf q ≤ liqOf p) ∧
          ∀ (st : ServiceState) (addrs : List String) (now : ℕ), addrs ≠ [] →
            (updateBatch st addrs (some pairs) now).tokenData tok = some p) ∧
    ((fetchTokenData initService "a" (some [pairLowLiq, pairHighLiq]) 0).1.tokenData "a"
        = some pairHighLiq ∧
      (updateBatch initService ["a"] (some [pairLowLiq, pairHighLiq]) 0).tokenData "a"
        = some pairHighLiq) := by
  refine ⟨?_, ?_, ?_⟩
  · intro st address pairs now hne _
    obtain ⟨m, hm, hmem, hmax⟩ := sortByLiqDesc_head_max pairs hne
    refine ⟨m, ?_, hmem, hmax, ?_, ?_⟩
    · simp [fetchTokenData, hm]
    · simp [fetchTokenData, hm]
    · intro h hh
      simp only [fetchTokenData, hm]
      apply List.mem_append_right
      exact List.mem_map.mpr ⟨h, hh, rfl⟩
  · intro pairs tok p hbest
    obtain ⟨hmem, hk, hmax⟩ := bestFor_some pairs tok p hbest
    refine ⟨hmem, hk, hmax, ?_⟩
    intro st addrs now haddr
    simp [updateBatch, haddr, hbest]
  · have hlow : toLowerStr "a" = "a" := by decide
    have hsort : sortByLiqDesc [pairLowLiq, pairHighLiq] = [pairHighLiq, pairLowLiq] := by
      norm_num [sortByLiqDesc, insertByLiq, liqOf, pairLowLiq, pairHighLiq]
    have hbest : bestFor [pairLowLiq, pairHighLiq] "a" = some pairHighLiq := by
      norm_num [bestFor, bestForAux, liqOf, pairLowLiq, pairHighLiq, hlow]
    constructor
    · simp [fetchTokenData, hsort, hlow]
    · simp [updateBatch, hbest]

theorem C5_highest_liquidity_selected_witness :
    ((fetchTokenData initService "a" (some [pairLowLiq, pairHighLiq]) 0).2 = some pairHighLiq ∧
        (fetchTokenData initService "a" (some [pairLowLiq, pairHighLiq]) 0).1.tokenData
            (toLowerStr "a")
          = some pairHighLiq) ∧
      (updateBatch initService ["batch"] (some [pairLowLiq, pairHighLiq]) 0).tokenData "a"
        = some pairHighLiq := by
  have hbest : bestFor [pairLowLiq, pairHighLiq] "a" = some pairHighLiq := by
    have hlow : toLowerStr "a" = "a" := by decide
    norm_num [bestFor, bestForAux, liqOf, pairLowLiq, pairHighLiq, hlow]
  obtain ⟨p, hret, hmem, hmax, hcache, _⟩ :=
    C5_highest_liquidity_selected.1 initService "a" [pairLowLiq, pairHighLiq] 0
      (by simp) (by decide)
  have hp : p = pairHighLiq := by
    have h1 := hmax pairHighLiq (by simp)
    have h2 : p = pairLowLiq ∨ p = pairHighLiq := by simpa using hmem
    rcases h2 with h2 | h2
    · exfalso
      rw [h2] at h1
      norm_num [liqOf, pairLowLiq, pairHighLiq] at h1
    · exact h2
  rw [hp] at hret hcache
  refine ⟨⟨hret, hcache⟩, ?_⟩
  exact (C5_highest_liquidity_selected.2.1 [pairLowLiq, pairHighLiq] "a" pairHighLiq
    hbest).2.2.2 initService ["batch"] 0 (by simp)

/-- C6: a batch update overwrites the snapshot and timestamp of exactly the
tokens present in the response (the keys of `pairsByAddress`); every token
absent from the response keeps its previous snapshot and timestamp, and a
failed response (or absent `pairs`) changes nothing at all — no error is
raised for partial responses, the transformer is total. -/
theorem C6_partial_batch_frame :
    ∀ (st : ServiceState) (addresses : List String) (pairs : List Pair) (now : ℕ)
      (tok : String),
      addresses ≠ [] →
      (((bestFor pairs tok).isSome = true ↔ ∃ p ∈ pairs, toLowerStr p.baseAddress = tok) ∧
        (∀ p, bestFor pairs tok = some p →
          (updateBatch st addresses (some pairs) now).tokenData tok = some p ∧
            (updateBatch st addresses (some pairs) now).lastUpdateTime tok = some now) ∧
        (bestFor pairs tok = none →
          (updateBatch st addresses (some pairs) now).tokenData tok = st.tokenData tok ∧
            (updateBatch st addresses (some pairs) now).lastUpdateTime tok
              = st.lastUpdateTime tok) ∧
        updateBatch st addresses none now = st) := by
  intro st addresses pairs now tok haddr
  refine ⟨bestFor_present pairs tok, ?_, ?_, ?_⟩
  · intro p hbest
    constructor
    · simp [updateBatch, haddr, hbest]
    · simp [updateBatch, haddr, hbest]
  · intro hbest
    constructor
    · simp [updateBatch, haddr, hbest]
    · simp [updateBatch, haddr, hbest]
  · simp [updateBatch]

theorem C6_partial_batch_frame_witness :
    ((updateBatch initService ["a", "b"] (some [pairLowLiq, pairHighLiq]) 5).tokenData "a"
        = some pairHighLiq ∧
      (updateBatch initService ["a", "b"] (some [pairLowLiq, pairHighLiq]) 5).lastUpdateTime "a"
        = some 5) ∧
      ((updateBatch initService ["a", "b"] (some [pairLowLiq, pairHighLiq]) 5).tokenData "b"
          = initService.tokenData "b" ∧
        (updateBatch initService ["a", "b"] (some [pairLowLiq, pairHighLiq]) 5).lastUpdateTime "b"
          = initService.lastUpdateTime "b") ∧
      updateBatch initService ["a", "b"] none 5 = initService := by
  have hlow : toLowerStr "a" = "a" := by decide
  have hbest : bestFor [pairLowLiq, pairHighLiq] "a" = some pairHighLiq := by
    norm_num [bestFor, bestForAux, liqOf, pairLowLiq, pairHighLiq, hlow]
  have hnone : bestFor [pairLowLiq, pairHighLiq] "b" = none := by decide
  have h1 := C6_partial_batch_frame initService ["a", "b"] [pairLowLiq, pairHighLiq] 5 "a"
    (by simp)
  have h2 := C6_partial_batch_frame initService ["a", "b"] [pairLowLiq, pairHighLiq] 5 "b"
    (by simp)
  exact ⟨h1.2.1 pairHighLiq hbest, h2.2.2.1 hnone, h1.2.2.2⟩

/-- C7: `unsubscribe` removes the handle from the token's subscriber set;
when the set thereby becomes empty, the subscriber entry, the cached
snapshot and the last-update timestamp are all deleted, while a non-empty
remainder leaves the caches untouched; consequently a `subscribe` on a
previously untracked token followed immediately by `unsubscribe` (no
intervening notification) leaves no residual entry for that token in any of
the three maps. -/
theorem C7_unsubscribe_cleanup :
    ∀ (st : ServiceState) (address : String) (handle : ℕ),
      (∀ s, st.subscribers (toLowerStr address) = some s →
        (((s.erase handle).length = 0 →
            (unsubscribe st address handle).subscribers (toLowerStr address) = none ∧
            (unsubscribe st address handle).tokenData (toLowerStr address) = none ∧
            (unsubscribe st address handle).lastUpdateTime (toLowerStr address) = none) ∧
          ((s.erase handle).length ≠ 0 →
            (unsubscribe st address handle).subscribers (toLowerStr address)
                = some (s.erase handle) ∧
            (unsubscribe st address handle).tokenData (toLowerStr address)
                = st.tokenData (toLowerStr address) ∧
            (unsubscribe st address handle).lastUpdateTime (toLowerStr address)
                = st.lastUpdateTime (toLowerStr address)))) ∧
      (st.subscribers (toLowerStr address) = none →
        (unsubscribe (subscribe st address handle) address handle).subscribers
            (toLowerStr address) = none ∧
        (unsubscribe (subscribe st address handle) address handle).tokenData
            (toLowerStr address) = none ∧
        (unsubscribe (subscribe st address handle) address handle).lastUpdateTime
            (toLowerStr address) = none) := by
  intro st address handle
  constructor
  · intro s hs
    constructor
    · intro hzero
      simp [unsubscribe, hs, hzero]
    · intro hnz
      simp [unsubscribe, hs, hnz]
  · intro hnone
    have hsub : (subscribe st address handle).subscribers (toLowerStr address)
        = some [handle] := by
      simp [subscribe, hnone]
    have htd : (subscribe st address handle).tokenData = st.tokenData := rfl
    have hlu : (subscribe st address handle).lastUpdateTime = st.lastUpdateTime := rfl
    have herase : ([handle].erase handle).length = 0 := by simp
    simp [unsubscribe, hsub, herase]

theorem C7_unsubscribe_cleanup_witness :
    ((unsubscribe (subscribe (subscribe initService "a" 1) "a" 2) "a" 2).subscribers
          (toLowerStr "a") = some [1] ∧
        (unsubscribe (subscribe (subscribe initService "a" 1) "a" 2) "a" 2).tokenData
            (toLowerStr "a")
          = (subscribe (subscribe initService "a" 1) "a" 2).tokenData (toLowerStr "a")) ∧
      ((unsubscribe (subscribe initService "a" 7) "a" 7).subscribers (toLowerStr "a")
          = none ∧
        (unsubscribe (subscribe initService "a" 7) "a" 7).tokenData (toLowerStr "a")
          = none ∧
        (unsubscribe (subscribe initService "a" 7) "a" 7).lastUpdateTime (toLowerStr "a")
          = none) := by
  have hlow : toLowerStr "a" = "a" := by decide
  have hst : (subscribe (subscribe initService "a" 1) "a" 2).subscribers (toLowerStr "a")
      = some [1, 2] := by
    simp [subscribe, initService, hlow]
  have h1 := (C7_unsubscribe_cleanup (subscribe (subscribe initService "a" 1) "a" 2)
    "a" 2).1 [1, 2] hst
  have herase : (([1, 2] : List ℕ).erase 2) = [1] := by decide
  have h2 := (C7_unsubscribe_cleanup initService "a" 7).2 rfl
  refine ⟨?_, h2⟩
  have := h1.2 (by rw [herase]; simp)
  rw [herase] at this
  exact ⟨this.1, this.2.1⟩

/-! ## The rate limiter (src/services/dexscreener-service.ts lines 67–92)

`waitForAvailability` is asynchronous; it is embedded as a function of the
explicit state and the current time (milliseconds), with suspension
modelled by time passing: the `setTimeout` sleep re-enters the function at
the later time, exactly as the recursive retry in the source does.  A
sequential trace of calls (each call made after the previous one completed,
the usage pattern of the drain loop) is a fold producing the list of
`(completion time, window start)` events. -/

/-- Mutable state of `RateLimiter`: `requests` (count recorded in the
current window) and `lastReset` (the window-start timestamp). -/
structure RLState where
  requests : ℕ
  lastReset : ℕ
deriving DecidableEq, Repr

/-- `resetInterval = 60000` — one minute in milliseconds. -/
def resetInterval : ℕ := 60000

/-- The reset step at the top of `waitForAvailability`: once the elapsed
time since `lastReset` reaches the interval, zero the count and restart the
window at `now`. -/
def checkReset (s : RLState) (now : ℕ) : RLState :=
  if resetInterval ≤ now - s.lastReset then ⟨0, now⟩ else s

/-- `waitForAvailability(limit)`: reset the window if due; if the count has
reached the limit, sleep exactly the remaining time of the window and
re-evaluate from the start; otherwise record the request and return.  The
result is the successor state and the completion time; the fuel bounds the
retries (two levels always suffice when `limit ≥ 1`, because after one
sleep the window is due for reset). -/
def waitForAvailability (limit : ℕ) : ℕ → RLState → ℕ → Option (RLState × ℕ)
  | 0, _, _ => none
  | fuel + 1, s, now =>
    let s1 := checkReset s now
    if limit ≤ s1.requests then
      waitForAvailability limit fuel s1 (now + (resetInterval - (now - s1.lastReset)))
    else
      some (⟨s1.requests + 1, s1.lastReset⟩, now)

/-- A sequential trace of acquire calls: from state `s` with the previous
completion at `now`, each entry of `gaps` is the delay after the previous
completion at which the next call starts.  Produces the
`(completion time, window start)` event of every call in order. -/
def runAcquires (limit : ℕ) : RLState → ℕ → List ℕ → Option (List (ℕ × ℕ))
  | _, _, [] => some []
  | s, now, g :: gs =>
    match waitForAvailability limit 2 s (now + g) with
    | none => none
    | some (s', c) =>
      match runAcquires limit s' c gs with
      | none => none
      | some evs => some ((c, s'.lastReset) :: evs)

theorem waitForAvailability_cases (limit : ℕ) (hl : 1 ≤ limit) (s : RLState) (now : ℕ)
    (hle : s.lastReset ≤ now) (hreq : s.requests ≤ limit) :
    (resetInterval ≤ now - s.lastReset ∧
        waitForAvailability limit 2 s now = some (⟨1, now⟩, now)) ∨
      (¬ resetInterval ≤ now - s.lastReset ∧ s.requests < limit ∧
        waitForAvailability limit 2 s now = some (⟨s.requests + 1, s.lastReset⟩, now)) ∨
      (¬ resetInterval ≤ now - s.lastReset ∧ s.requests = limit ∧
        waitForAvailability limit 2 s now
          = some (⟨1, s.lastReset + resetInterval⟩, s.lastReset + resetInterval)) := by
  by_cases hr : resetInterval ≤ now - s.lastReset
  · left
    refine ⟨hr, ?_⟩
    have hz : ¬ limit ≤ (0 : ℕ) := by omega
    show (let s1 := checkReset s now;
      if limit ≤ s1.requests then
        waitForAvailability limit 1 s1 (now + (resetInterval - (now - s1.lastReset)))
      else some (⟨s1.requests + 1, s1.lastReset⟩, now)) = _
    simp [checkReset, hr, hz]
  · by_cases hq : limit ≤ s.requests
    · right; right
      have heq : s.requests = limit := le_antisymm hreq hq
      refine ⟨hr, heq, ?_⟩
      have hnow : now + (resetInterval - (now - s.lastReset)) = s.lastReset + resetInterval := by
        omega
      have hz : ¬ limit ≤ (0 : ℕ) := by omega
      show (let s1 := checkReset s now;
        if limit ≤ s1.requests then
          waitForAvailability limit 1 s1 (now + (resetInterval - (now - s1.lastReset)))
        else some (⟨s1.requests + 1, s1.lastReset⟩, now)) = _
      simp only [checkReset, if_neg hr]
      rw [if_pos hq, hnow]
      show (let s1 := checkReset s (s.lastReset + resetInterval);
        if limit ≤ s1.requests then
          waitForAvailability limit 0 s1
            ((s.lastReset + resetInterval) +
              (resetInterval - ((s.lastReset + resetInterval) - s1.lastReset)))
        else some (⟨s1.requests + 1, s1.lastReset⟩, s.lastReset + resetInterval)) = _
      have hr2 : resetInterval ≤ (s.lastReset + resetInterval) - s.lastReset := by omega
      simp [checkReset, hr2, hz]
    · right; left
      refine ⟨hr, lt_of_not_le hq, ?_⟩
      show (let s1 := checkReset s now;
        if limit ≤ s1.requests then
          waitForAvailability limit 1 s1 (now + (resetInterval - (now - s1.lastReset)))
        else some (⟨s1.requests + 1, s1.lastReset⟩, now)) = _
      simp only [checkReset, if_neg hr]
      rw [if_neg hq]

theorem resetInterval_pos : 0 < resetInterval := by norm_num [resetInterval]

/-- The window relation between two recorded events: same window, or the
later one's window starts at least a full interval later. -/
def winLe (e e' : ℕ × ℕ) : Prop := e.2 = e'.2 ∨ e.2 + resetInterval ≤ e'.2

theorem runAcquires_spec (limit : ℕ) (hl : 1 ≤ limit) :
    ∀ (gaps : List ℕ) (s : RLState) (now : ℕ),
      s.lastReset ≤ now → s.requests ≤ limit →
      ∃ evs, runAcquires limit s now gaps = some evs ∧
        (∀ e ∈ evs,
          (e.2 = s.lastReset ∨ s.lastReset + resetInterval ≤ e.2) ∧
            e.2 ≤ e.1 ∧ e.1 < e.2 + resetInterval) ∧
        (∀ w, (evs.filter (fun e => decide (e.2 = w))).length +
            (if w = s.lastReset then s.requests else 0) ≤ limit) ∧
        List.Pairwise winLe evs := by
  intro gaps
  induction gaps with
  | nil =>
    intro s now hle hreq
    refine ⟨[], rfl, by simp, ?_, by simp⟩
    intro w
    by_cases hw : w = s.lastReset <;> simp [hw, hreq]
  | cons g gs ih =>
    intro s now hle hreq
    have hIpos := resetInterval_pos
    have hT : s.lastReset ≤ now + g := le_trans hle (Nat.le_add_right _ _)
    have step : ∀ (s' : RLState) (c : ℕ),
        waitForAvailability limit 2 s (now + g) = some (s', c) →
        s'.lastReset ≤ c → c < s'.lastReset + resetInterval →
        s'.requests ≤ limit →
        ((s'.lastReset = s.lastReset ∧ s'.requests = s.requests + 1) ∨
          (s.lastReset + resetInterval ≤ s'.lastReset ∧ s'.requests = 1)) →
        ∃ evs, runAcquires limit s now (g :: gs) = some evs ∧
          (∀ e ∈ evs,
            (e.2 = s.lastReset ∨ s.lastReset + resetInterval ≤ e.2) ∧
              e.2 ≤ e.1 ∧ e.1 < e.2 + resetInterval) ∧
          (∀ w, (evs.filter (fun e => decide (e.2 = w))).length +
              (if w = s.lastReset then s.requests else 0) ≤ limit) ∧
          List.Pairwise winLe evs := by
      intro s' c hw hc1 hc2 hrq hbr
      obtain ⟨evs, hrun, hev, hcnt, hpw⟩ := ih s' c hc1 hrq
      refine ⟨(c, s'.lastReset) :: evs, ?_, ?_, ?_, ?_⟩
      · simp [runAcquires, hw, hrun]
      · intro e he
        rcases List.mem_cons.mp he with he | he
        · subst he
          refine ⟨?_, hc1, hc2⟩
          rcases hbr with ⟨hbw, _⟩ | ⟨hbw, _⟩
          · exact Or.inl hbw
          · exact Or.inr hbw
        · obtain ⟨hd, hb1, hb2⟩ := hev e he
          refine ⟨?_, hb1, hb2⟩
          rcases hbr with ⟨hbw, _⟩ | ⟨hbw, _⟩
          · rw [hbw] at hd
            exact hd
          · rcases hd with hd | hd
            · exact Or.inr (by omega)
            · exact Or.inr (by omega)
      · intro w
        by_cases hww : s'.lastReset = w
        · rw [List.filter_cons_of_pos (by simp [hww])]
          have hcw := hcnt w
          rw [if_pos hww.symm] at hcw
          rcases hbr with ⟨hbw, hbq⟩ | ⟨hbw, hbq⟩
          · have hws : w = s.lastReset := by rw [← hww, hbw]
            rw [if_pos hws]
            rw [hbq] at hcw
            simp only [List.length_cons]
            omega
          · have hws : ¬ w = s.lastReset := by omega
            rw [if_neg hws]
            rw [hbq] at hcw
            simp only [List.length_cons]
            omega
        · rw [List.filter_cons_of_neg (by simp [hww])]
          by_cases hws : w = s.lastReset
          · rcases hbr with ⟨hbw, _⟩ | ⟨hbw, _⟩
            · exact absurd (by rw [hbw, ← hws]) hww
            · have hnil : evs.filter (fun e => decide (e.2 = w)) = [] := by
                rw [List.filter_eq_nil_iff]
                intro e he
                obtain ⟨hd, _, _⟩ := hev e he
                simp only [decide_eq_true_eq]
                rcases hd with hd | hd <;> omega
              rw [hnil, if_pos hws]
              simpa using hreq
          · rw [if_neg hws]
            have hcw := hcnt w
            by_cases hwp : w = s'.lastReset
            · rw [if_pos hwp] at hcw
              omega
            · rw [if_neg hwp] at hcw
              omega
      · rw [List.pairwise_cons]
        refine ⟨?_, hpw⟩
        intro e he
        obtain ⟨hd, _, _⟩ := hev e he
        rcases hd with hd | hd
        · exact Or.inl hd.symm
        · exact Or.inr hd
    rcases waitForAvailability_cases limit hl s (now + g) hT hreq with
      ⟨hr, hw⟩ | ⟨hr, hlt, hw⟩ | ⟨hr, heq, hw⟩
    · exact step ⟨1, now + g⟩ (now + g) hw (le_refl _) (by simpa using hIpos) hl
        (Or.inr ⟨by show s.lastReset + resetInterval ≤ now + g; omega, rfl⟩)
    · exact step ⟨s.requests + 1, s.lastReset⟩ (now + g) hw hT (by simp; omega) (by simpa)
        (Or.inl ⟨rfl, rfl⟩)
    · exact step ⟨1, s.lastReset + resetInterval⟩ (s.lastReset + resetInterval) hw
        (le_refl _) (by simpa using hIpos) hl (Or.inr ⟨le_refl _, rfl⟩)

theorem length_filter_split {α : Type} (p : α → Bool) :
    ∀ l : List α, l.length = (l.filter p).length + (l.filter (fun a => ! p a)).length := by
  intro l
  induction l with
  | nil => simp
  | cons a l ih =>
    cases hp : p a <;> simp [List.filter_cons, hp, ih] <;> omega

theorem pairwise_total {α : Type} {R : α → α → Prop} :
    ∀ l : List α, List.Pairwise R l → ∀ x ∈ l, ∀ y ∈ l, x = y ∨ R x y ∨ R y x := by
  intro l
  induction l with
  | nil => intro _ x hx; simp at hx
  | cons a l ih =>
    intro hl x hx y hy
    rw [List.pairwise_cons] at hl
    obtain ⟨hhead, htail⟩ := hl
    rcases List.mem_cons.mp hx with hxa | hxl
    · rcases List.mem_cons.mp hy with hya | hyl
      · exact Or.inl (hxa.trans hya.symm)
      · exact Or.inr (Or.inl (by rw [hxa]; exact hhead y hyl))
    · rcases List.mem_cons.mp hy with hya | hyl
      · exact Or.inr (Or.inr (by rw [hya]; exact hhead x hxl))
      · exact ih htail x hxl y hyl

/-- C3: the rate limiter's behaviour, as implemented by
`waitForAvailability`: (1) once the elapsed time since the stored window
start reaches the window duration, the count is reset to zero and the
window start to now; (2) a call finding `count ≥ limit` suspends for
exactly the remaining time of the window and then re-evaluates from the
start — a retry, not a single fixed sleep; (3) along any sequential trace
of calls, at most `limit` acquisitions are recorded under any one window
start; and (4) at most `2·limit` calls complete within any window-length
time interval — in particular within one that spans exactly one window
boundary. -/
theorem C3_rate_limiter :
    (∀ (s : RLState) (now : ℕ), resetInterval ≤ now - s.lastReset →
        checkReset s now = ⟨0, now⟩) ∧
    (∀ (limit fuel : ℕ) (s : RLState) (now : ℕ),
        limit ≤ (checkReset s now).requests →
        waitForAvailability limit (fuel + 1) s now
          = waitForAvailability limit fuel (checkReset s now)
              (now + (resetInterval - (now - (checkReset s now).lastReset)))) ∧
    (∀ (limit start : ℕ) (gaps : List ℕ) (evs : List (ℕ × ℕ)), 1 ≤ limit →
        runAcquires limit ⟨0, start⟩ start gaps = some evs →
        (∀ w, (evs.filter (fun e => decide (e.2 = w))).length ≤ limit) ∧
        (∀ t, (evs.filter
              (fun e => decide (t ≤ e.1) && decide (e.1 < t + resetInterval))).length
            ≤ 2 * limit)) := by
  refine ⟨?_, ?_, ?_⟩
  · intro s now hr
    simp [checkReset, hr]
  · intro limit fuel s now hq
    show (let s1 := checkReset s now;
      if limit ≤ s1.requests then
        waitForAvailability limit fuel s1 (now + (resetInterval - (now - s1.lastReset)))
      else some (⟨s1.requests + 1, s1.lastReset⟩, now)) = _
    simp only [if_pos hq]
  · intro limit start gaps evs hl hrun
    obtain ⟨evs', hrun', hev, hcnt, hpw⟩ :=
      runAcquires_spec limit hl gaps ⟨0, start⟩ start (le_refl _) (Nat.zero_le _)
    rw [hrun'] at hrun
    injection hrun with hrun
    rw [hrun] at hev hcnt hpw
    have hcount : ∀ w, (evs.filter (fun e => decide (e.2 = w))).length ≤ limit := by
      intro w
      have := hcnt w
      simpa using this
    refine ⟨hcount, ?_⟩
    intro t
    set inI : ℕ × ℕ → Bool :=
      fun e => decide (t ≤ e.1) && decide (e.1 < t + resetInterval) with hinI
    set S := evs.filter inI with hS
    have hSsub : S.Sublist evs := List.filter_sublist evs
    have hSmem : ∀ e ∈ S, e ∈ evs := fun e he => List.mem_of_mem_filter he
    have hSint : ∀ e ∈ S, t ≤ e.1 ∧ e.1 < t + resetInterval := by
      intro e he
      have := List.of_mem_filter he
      rw [hinI] at this
      simp at this
      exact this
    have hwin : ∀ e ∈ S, t < e.2 + resetInterval ∧ e.2 < t + resetInterval := by
      intro e he
      obtain ⟨_, hb1, hb2⟩ := hev e (hSmem e he)
      obtain ⟨hi1, hi2⟩ := hSint e he
      omega
    have hgap : ∀ e ∈ S, ∀ e' ∈ S, e.2 ≠ e'.2 →
        e.2 + resetInterval ≤ e'.2 ∨ e'.2 + resetInterval ≤ e.2 := by
      intro e he e' he' hne
      rcases pairwise_total evs hpw e (hSmem e he) e' (hSmem e' he') with h | h | h
      · exact absurd (by rw [h]) hne
      · rcases h with h | h
        · exact absurd h hne
        · exact Or.inl h
      · rcases h with h | h
        · exact absurd h.symm hne
        · exact Or.inr h
    cases hScases : S with
    | nil =>
      simp
    | cons e1 Srest =>
      have he1 : e1 ∈ S := by rw [hScases]; exact List.mem_cons_self _ _
      set p1 : ℕ × ℕ → Bool := fun e => decide (e.2 = e1.2) with hp1
      have hsplit := length_filter_split p1 S
      have hS1 : (S.filter p1).length ≤ limit := by
        have hsub : (S.filter p1).Sublist (evs.filter p1) := hSsub.filter p1
        exact le_trans hsub.length_le (hcount e1.2)
      have hS2 : (S.filter (fun e => ! p1 e)).length ≤ limit := by
        cases hT2 : S.filter (fun e => ! p1 e) with
        | nil => simp
        | cons e2 Trest =>
          have he2T : e2 ∈ S.filter (fun e => ! p1 e) := by
            rw [hT2]; exact List.mem_cons_self _ _
          have he2S : e2 ∈ S := List.mem_of_mem_filter he2T
          have he2w : ¬ (e2.2 = e1.2) := by
            have := List.of_mem_filter he2T
            rw [hp1] at this
            simpa using this
          have hall : ∀ e ∈ S.filter (fun e => ! p1 e), e.2 = e2.2 := by
            intro e3 heT
            have he3S : e3 ∈ S := List.mem_of_mem_filter heT
            have he3w : ¬ (e3.2 = e1.2) := by
              have := List.of_mem_filter heT
              rw [hp1] at this
              simpa using this
            by_contra hne
            have h12 := hgap e1 he1 e2 he2S (fun h => he2w h.symm)
            have h13 := hgap e1 he1 e3 he3S (fun h => he3w h.symm)
            have h23 := hgap e2 he2S e3 he3S (fun h => hne h.symm)
            obtain ⟨hb1, hb1'⟩ := hwin e1 he1
            obtain ⟨hb2, hb2'⟩ := hwin e2 he2S
            obtain ⟨hb3, hb3'⟩ := hwin e3 he3S
            rcases h12 with h12 | h12 <;> rcases h13 with h13 | h13 <;>
              rcases h23 with h23 | h23 <;> omega
          have hfix : (S.filter (fun e => ! p1 e)).filter (fun e => decide (e.2 = e2.2))
              = S.filter (fun e => ! p1 e) := by
            rw [List.filter_eq_self]
            intro a ha
            simp [hall a ha]
          have hsub2 : (S.filter (fun e => ! p1 e)).Sublist evs :=
            (List.filter_sublist S).trans hSsub
          have hsub3 : ((S.filter (fun e => ! p1 e)).filter
                (fun e => decide (e.2 = e2.2))).Sublist
              (evs.filter (fun e => decide (e.2 = e2.2))) :=
            hsub2.filter _
          rw [hfix] at hsub3
          rw [← hT2]
          exact le_trans hsub3.length_le (hcount e2.2)
      have hlen : S.length = (e1 :: Srest).length := by rw [hScases]
      omega

theorem C3_rate_limiter_witness :
    checkReset ⟨3, 0⟩ 60000 = ⟨0, 60000⟩ ∧
      waitForAvailability 1 2 ⟨1, 0⟩ 10
        = waitForAvailability 1 1 (checkReset ⟨1, 0⟩ 10)
            (10 + (resetInterval - (10 - (checkReset ⟨1, 0⟩ 10).lastReset))) ∧
      (([((0 : ℕ), (0 : ℕ)), (60000, 60000)].filter
            (fun e => decide (e.2 = 0))).length ≤ 1) ∧
      (([((0 : ℕ), (0 : ℕ)), (60000, 60000)].filter
            (fun e => decide (0 ≤ e.1) && decide (e.1 < 0 + resetInterval))).length
          ≤ 2 * 1) := by
  have h3 := C3_rate_limiter.2.2 1 0 [0, 0] [(0, 0), (60000, 60000)] (by decide) (by decide)
  exact ⟨C3_rate_limiter.1 ⟨3, 0⟩ 60000 (by decide),
    C3_rate_limiter.2.1 1 1 ⟨1, 0⟩ 10 (by decide), h3.1 0, h3.2 0⟩

/-! ## The request queue (src/services/dexscreener-service.ts lines 107–143)

`processQueue` is an asynchronous drain loop guarded by the
`isProcessingQueue` flag; `queueRequest` pushes a task and re-enters
`processQueue`.  The system is embedded as a small-step machine over an
explicit state: an external action either enqueues a task (push plus the
re-entrant `processQueue()` call, which starts a drain only when none is
active) or lets an active drain run one loop iteration (shift the head,
await the rate limiter, invoke the task — with a thrown error caught and
logged — or observe the empty queue and exit). -/

/-- Observable state of the queue machinery.  Tasks are opaque identifiers.
`enqueued`/`executed`/`errors` are observation logs (every task ever
queued, in order; every task invoked, in order; every invocation that
threw); `acquires` counts the `rateLimiter.waitForAvailability()` calls
made by the drain; `activeDrains` counts the drain loops currently
running. -/
structure QState where
  queue : List ℕ
  isProcessingQueue : Bool
  enqueued : List ℕ
  executed : List ℕ
  acquires : ℕ
  errors : List ℕ
  activeDrains : ℕ
deriving DecidableEq, Repr

/-- The queue state at construction. -/
def initQueue : QState := ⟨[], false, [], [], 0, [], 0⟩

/-- An external event of the queue system. -/
inductive QAction where
  | enq (t : ℕ)
  | tick
deriving DecidableEq, Repr

/-- One step.  `outcome t = true` means task `t` throws when invoked. -/
def qstep (outcome : ℕ → Bool) (s : QState) : QAction → QState
  | .enq t =>
    let s' := { s with queue := s.queue ++ [t], enqueued := s.enqueued ++ [t] }
    if s'.isProcessingQueue then s'
    else { s' with isProcessingQueue := true, activeDrains := s'.activeDrains + 1 }
  | .tick =>
    if s.isProcessingQueue then
      match s.queue with
      | t :: rest =>
        { s with
          queue := rest
          executed := s.executed ++ [t]
          acquires := s.acquires + 1
          errors := if outcome t then s.errors ++ [t] else s.errors }
      | [] =>
        { s with isProcessingQueue := false, activeDrains := s.activeDrains - 1 }
    else s

/-- Run a sequence of external events from the construction state. -/
def qrun (outcome : ℕ → Bool) (acts : List QAction) : QState :=
  acts.foldl (qstep outcome) initQueue

/-- The inductive invariant of the queue system: the enqueue log splits
into the executed prefix and the pending queue (FIFO), a non-empty queue
implies an active drain, exactly one drain runs while the flag is set, the
limiter was acquired once per invocation, and the error log is the thrown
subsequence of the executed log. -/
def qinv (outcome : ℕ → Bool) (s : QState) : Prop :=
  s.enqueued = s.executed ++ s.queue ∧
    (s.queue ≠ [] → s.isProcessingQueue = true) ∧
    s.activeDrains = (if s.isProcessingQueue then 1 else 0) ∧
    s.acquires = s.executed.length ∧
    s.errors = s.executed.filter outcome

theorem qinv_init (outcome : ℕ → Bool) : qinv outcome initQueue := by
  refine ⟨rfl, ?_, rfl, rfl, rfl⟩
  intro h
  exact absurd rfl h

theorem qinv_step (outcome : ℕ → Bool) (s : QState) (a : QAction) (h : qinv outcome s) :
    qinv outcome (qstep outcome s a) := by
  obtain ⟨h1, h2, h3, h4, h5⟩ := h
  cases a with
  | enq t =>
    by_cases hp : s.isProcessingQueue
    · refine ⟨?_, ?_, ?_, ?_, ?_⟩ <;> simp [qstep, hp, h1, h3, h4, h5]
    · have hq : s.queue = [] := by
        by_contra hq
        exact hp (h2 hq)
      refine ⟨?_, ?_, ?_, ?_, ?_⟩ <;>
        simp [qstep, hp, hq, h1, h3, h4, h5]
  | tick =>
    by_cases hp : s.isProcessingQueue
    · cases hq : s.queue with
      | cons t rest =>
        refine ⟨?_, ?_, ?_, ?_, ?_⟩
        · simp only [qstep, hp, hq]
          simp only [if_true]
          rw [h1, hq]
          simp
        · simp [qstep, hp, hq]
        · simp [qstep, hp, hq, h3]
        · simp [qstep, hp, hq, h4]
        · simp only [qstep, hp, hq, if_true]
          rw [h5, List.filter_append]
          cases ho : outcome t <;> simp [ho]
      | nil =>
        refine ⟨?_, ?_, ?_, ?_, ?_⟩ <;>
          simp [qstep, hp, hq, h3, h4, h5]
        rw [h1, hq]
        simp
    · exact ⟨by simpa [qstep, hp] using h1, by simpa [qstep, hp] using h2,
        by simpa [qstep, hp] using h3, by simpa [qstep, hp] using h4,
        by simpa [qstep, hp] using h5⟩

theorem qinv_foldl (outcome : ℕ → Bool) (acts : List QAction) :
    ∀ s : QState, qinv outcome s → qinv outcome (acts.foldl (qstep outcome) s) := by
  induction acts with
  | nil => intro s h; exact h
  | cons a acts ih =>
    intro s h
    exact ih _ (qinv_step outcome s a h)

theorem qinv_run (outcome : ℕ → Bool) (acts : List QAction) :
    qinv outcome (qrun outcome acts) :=
  qinv_foldl outcome acts initQueue (qinv_init outcome)

/-- Everything the step relation does except the error log. -/
def sameButErrors (s s' : QState) : Prop :=
  s.queue = s'.queue ∧ s.isProcessingQueue = s'.isProcessingQueue ∧
    s.enqueued = s'.enqueued ∧ s.executed = s'.executed ∧
    s.acquires = s'.acquires ∧ s.activeDrains = s'.activeDrains

theorem sameButErrors_step (o₁ o₂ : ℕ → Bool) (s s' : QState) (a : QAction)
    (h : sameButErrors s s') : sameButErrors (qstep o₁ s a) (qstep o₂ s' a) := by
  obtain ⟨h1, h2, h3, h4, h5, h6⟩ := h
  cases a with
  | enq t =>
    by_cases hp : s.isProcessingQueue
    · have hp' : s'.isProcessingQueue := by rw [← h2]; exact hp
      exact ⟨by simp [qstep, hp, hp', h1], by simp [qstep, hp, hp'],
        by simp [qstep, hp, hp', h3], by simp [qstep, hp, hp', h4],
        by simp [qstep, hp, hp', h5], by simp [qstep, hp, hp', h6]⟩
    · have hp' : ¬ s'.isProcessingQueue := by rw [← h2]; exact hp
      exact ⟨by simp [qstep, hp, hp', h1], by simp [qstep, hp, hp'],
        by simp [qstep, hp, hp', h3], by simp [qstep, hp, hp', h4],
        by simp [qstep, hp, hp', h5], by simp [qstep, hp, hp', h6]⟩
  | tick =>
    by_cases hp : s.isProcessingQueue
    · have hp' : s'.isProcessingQueue := by rw [← h2]; exact hp
      cases hq : s.queue with
      | cons t rest =>
        have hq' : s'.queue = t :: rest := by rw [← h1]; exact hq
        exact ⟨by simp [qstep, hp, hp', hq, hq'], by simp [qstep, hp, hp', hq, hq', h2],
          by simp [qstep, hp, hp', hq, hq', h3], by simp [qstep, hp, hp', hq, hq', h4],
          by simp [qstep, hp, hp', hq, hq', h5], by simp [qstep, hp, hp', hq, hq', h6]⟩
      | nil =>
        have hq' : s'.queue = [] := by rw [← h1]; exact hq
        exact ⟨by simp [qstep, hp, hp', hq, hq', h1], by simp [qstep, hp, hp', hq, hq'],
          by simp [qstep, hp, hp', hq, hq', h3], by simp [qstep, hp, hp', hq, hq', h4],
          by simp [qstep, hp, hp', hq, hq', h5], by simp [qstep, hp, hp', hq, hq', h6]⟩
    · have hp' : ¬ s'.isProcessingQueue := by rw [← h2]; exact hp
      exact ⟨by simp [qstep, hp, hp', h1], by simp [qstep, hp, hp', h2],
        by simp [qstep, hp, hp', h3], by simp [qstep, hp, hp', h4],
        by simp [qstep, hp, hp', h5], by simp [qstep, hp, hp', h6]⟩

theorem sameButErrors_foldl (o₁ o₂ : ℕ → Bool) (acts : List QAction) :
    ∀ s s' : QState, sameButErrors s s' →
      sameButErrors (acts.foldl (qstep o₁) s) (acts.foldl (qstep o₂) s') := by
  induction acts with
  | nil => intro s s' h; exact h
  | cons a acts ih =>
    intro s s' h
    exact ih _ _ (sameButErrors_step o₁ o₂ s s' a h)

/-- Running the drain for `n` ticks executes the first `n` pending tasks in
queue order. -/
theorem ticks_drain (outcome : ℕ → Bool) :
    ∀ (n : ℕ) (s : QState), qinv outcome s →
      ((List.replicate n QAction.tick).foldl (qstep outcome) s).executed
          = s.executed ++ s.queue.take n ∧
        ((List.replicate n QAction.tick).foldl (qstep outcome) s).queue = s.queue.drop n := by
  intro n
  induction n with
  | zero => intro s _; simp
  | succ n ih =>
    intro s hinv
    rw [List.replicate_succ, List.foldl_cons]
    have hstep := qinv_step outcome s QAction.tick hinv
    obtain ⟨ihe, ihq⟩ := ih _ hstep
    cases hq : s.queue with
    | nil =>
      have hq2 : (qstep outcome s QAction.tick).queue = [] := by
        by_cases hp : s.isProcessingQueue <;> simp [qstep, hp, hq]
      have hq3 : (qstep outcome s QAction.tick).executed = s.executed := by
        by_cases hp : s.isProcessingQueue <;> simp [qstep, hp, hq]
      rw [ihe, ihq, hq2, hq3]
      simp [hq]
    | cons t rest =>
      have hp : s.isProcessingQueue = true := hinv.2.1 (by simp [hq])
      have hq2 : (qstep outcome s QAction.tick).queue = rest := by simp [qstep, hp, hq]
      have hq3 : (qstep outcome s QAction.tick).executed = s.executed ++ [t] := by
        simp [qstep, hp, hq]
      rw [ihe, ihq, hq2, hq3]
      simp [hq]

/-- C4: for every action sequence over the request queue — arbitrary
interleaving of enqueues and drain iterations — (1) the tasks invoked so
far are exactly the first enqueued ones, in enqueue (FIFO) order, the rest
still pending in order; (2) at most one drain loop is ever active
(re-entrant enqueues never spawn a second); (3) the error log is exactly
the thrown subsequence of the invoked tasks — a throwing task is caught
and logged; (4) the rate limiter was acquired exactly once per invoked
task; (5) which tasks throw has no effect on what is invoked — a failure
never halts the drain; and (6) given enough further drain iterations every
enqueued task gets invoked. -/
theorem C4_request_queue :
    ∀ (outcome : ℕ → Bool) (acts : List QAction),
      (qrun outcome acts).enqueued
          = (qrun outcome acts).executed ++ (qrun outcome acts).queue ∧
        (qrun outcome acts).activeDrains ≤ 1 ∧
        (qrun outcome acts).errors = (qrun outcome acts).executed.filter outcome ∧
        (qrun outcome acts).acquires = (qrun outcome acts).executed.length ∧
        (∀ outcome' : ℕ → Bool,
          (qrun outcome' acts).executed = (qrun outcome acts).executed) ∧
        (∀ n : ℕ, (qrun outcome acts).queue.length ≤ n →
          (qrun outcome (acts ++ List.replicate n QAction.tick)).executed
            = (qrun outcome acts).enqueued) := by
  intro outcome acts
  obtain ⟨h1, h2, h3, h4, h5⟩ := qinv_run outcome acts
  refine ⟨h1, ?_, h5, h4, ?_, ?_⟩
  · rw [h3]
    by_cases hp : (qrun outcome acts).isProcessingQueue <;> simp [hp]
  · intro outcome'
    exact (sameButErrors_foldl outcome' outcome acts initQueue initQueue
      ⟨rfl, rfl, rfl, rfl, rfl, rfl⟩).2.2.2.1
  · intro n hn
    show ((acts ++ List.replicate n QAction.tick).foldl (qstep outcome) initQueue).executed = _
    rw [List.foldl_append]
    obtain ⟨he, _⟩ := ticks_drain outcome n (qrun outcome acts) (qinv_run outcome acts)
    have hfold : List.foldl (qstep outcome) initQueue acts = qrun outcome acts := rfl
    rw [hfold, he, List.take_of_length_le hn, h1]

theorem C4_request_queue_witness :
    (qrun (fun t => decide (t = 1)) [.enq 0, .enq 1, .tick, .enq 2]).enqueued
        = (qrun (fun t => decide (t = 1)) [.enq 0, .enq 1, .tick, .enq 2]).executed ++
            (qrun (fun t => decide (t = 1)) [.enq 0, .enq 1, .tick, .enq 2]).queue ∧
      (qrun (fun t => decide (t = 1)) [.enq 0, .enq 1, .tick, .enq 2]).activeDrains ≤ 1 ∧
      (qrun (fun t => decide (t = 1))
          ([.enq 0, .enq 1, .tick, .enq 2] ++ List.replicate 2 QAction.tick)).executed
        = (qrun (fun t => decide (t = 1)) [.enq 0, .enq 1, .tick, .enq 2]).enqueued := by
  have h := C4_request_queue (fun t => decide (t = 1)) [.enq 0, .enq 1, .tick, .enq 2]
  exact ⟨h.1, h.2.1, h.2.2.2.2.2 2 (by decide)⟩

end DexSim
